import Mathlib

/-!
Verification of the interval-computation and cut-assembly pipeline of the
Smart Cut backend (`backend/main.py`).  Times and probabilities are modelled
as rationals; Python dicts with keys `start`/`end` become structures whose
second field is named `stop` (`end` is a Lean keyword).
-/

namespace SmartCut

/-- A time interval, as the `{"start": ..., "end": ...}` dicts of the cut
request.  Field `stop` models the dict key `end`. -/
structure Interval where
  start : ℚ
  stop : ℚ
deriving DecidableEq, Repr

/-- Ordering used by `cuts_data.sort(key=lambda x: x["start"])`. -/
def cutLE (a b : Interval) : Prop := a.start ≤ b.start

instance : DecidableRel cutLE := fun a b => inferInstanceAs (Decidable (a.start ≤ b.start))

instance : IsTotal Interval cutLE := ⟨fun a b => le_total a.start b.start⟩

instance : IsTrans Interval cutLE := ⟨fun _ _ _ h1 h2 => le_trans h1 h2⟩

/-- `cuts_data.sort(key=lambda x: x["start"])` — Python's stable sort by
start, modelled by insertion sort (also stable). -/
def sortCuts (cuts : List Interval) : List Interval := cuts.insertionSort cutLE

/-- The common loop of `cut_video` (both branches): walk the cut list,
keeping `(current_time, cut.start)` whenever `current_time < cut.start`
and then setting `current_time = cut.end`.  Returns the final
`current_time` together with the kept segments in emission order. -/
def planLoop : ℚ → List Interval → ℚ × List Interval
  | cur, [] => (cur, [])
  | cur, c :: cs =>
    let rest := planLoop c.stop cs
    (rest.1, (if cur < c.start then [⟨cur, c.start⟩] else []) ++ rest.2)

/-- `tolerance = 0.01  # 10ms tolerance` in the video branch of `cut_video`. -/
def tolerance : ℚ := 1 / 100

/-- `segments_to_keep` as computed by the video branch of `cut_video`
(lines 352-377): sort the cuts by start, run the keep loop from 0, and
append the final segment `(current_time, duration)` only when
`current_time + tolerance < duration`. -/
def planKeepsVideo (cuts : List Interval) (D : ℚ) : List Interval :=
  let r := planLoop 0 (sortCuts cuts)
  if r.1 + tolerance < D then r.2 ++ [⟨r.1, D⟩] else r.2

/-- `segments_to_keep` as computed by the audio branch of `cut_video`
(lines 410-420): no sort and no tolerance; the final segment is appended
whenever `current_time < duration`. -/
def planKeepsAudio (cuts : List Interval) (D : ℚ) : List Interval :=
  let r := planLoop 0 cuts
  if r.1 < D then r.2 ++ [⟨r.1, D⟩] else r.2

/-- Modelled from the spec: the `NothingToKeep` error of the SegmentAssembler
contract.  The code in `cut_video` has no such error; the constructor exists
only so that the claim about it is statable. -/
inductive CutError where
  | nothingToKeep
deriving DecidableEq

/-- The material written to the output by `cut_video` (video branch),
described by the list of source sub-ranges that are concatenated: the kept
segments if any, otherwise the whole original clip
(`final_video = clip` when `segments_to_keep` is empty). -/
def cutVideoResult (cuts : List Interval) (D : ℚ) : Except CutError (List Interval) :=
  let keeps := planKeepsVideo cuts D
  if keeps.isEmpty then .ok [⟨0, D⟩] else .ok keeps

/-- A transcript segment as consumed by `detect_silence`; only the fields
the endpoint reads.  `stop` models the key `end`. -/
structure Seg where
  start : ℚ
  stop : ℚ
  no_speech_prob : ℚ
deriving DecidableEq, Repr

/-- The `SilenceSegment` pydantic model of `backend/main.py`. -/
structure SilenceSegment where
  start : ℚ
  stop : ℚ
  duration : ℚ
  confidence : ℚ
deriving DecidableEq, Repr

/-- How a `detect_silence` request can fail.  `zeroDivision` is the
`ZeroDivisionError` raised by `sum(...) / len(transcript.segments)` on an
empty segment list, surfaced by the blanket handler as a generic 500.
`insufficientInput` is modelled from the spec (the typed `InsufficientInput`
failure); no code path produces it. -/
inductive DetectError where
  | zeroDivision
  | insufficientInput
deriving DecidableEq

/-- The uniform-fallback branch of `detect_silence` (lines 165-189):
`for i in range(int(total_duration / 3.0))`, window `[3i, min(3(i+1), D)]`,
emitted when its duration is at least `min_duration`, with confidence
`0.6 + (i % 3) * 0.1`. -/
def uniformWindows (D min_duration : ℚ) : List SilenceSegment :=
  (List.range (Int.toNat ⌊D / 3⌋)).filterMap fun (i : ℕ) =>
    let s : ℚ := (i : ℚ) * 3
    let e : ℚ := min (((i : ℚ) + 1) * 3) D
    if e - s ≥ min_duration then
      some ⟨s, e, e - s, 3 / 5 + ((i % 3 : ℕ) : ℚ) * (1 / 10)⟩
    else none

/-- The per-segment likelihood pass of `detect_silence` (lines 195-217):
a segment with `no_speech_prob > threshold` and duration at least
`min_duration` is emitted as silence with `confidence = no_speech_prob`. -/
def likelihoodPart (segs : List Seg) (threshold min_duration : ℚ) : List SilenceSegment :=
  segs.filterMap fun s =>
    if s.no_speech_prob > threshold ∧ s.stop - s.start ≥ min_duration then
      some ⟨s.start, s.stop, s.stop - s.start, s.no_speech_prob⟩
    else none

/-- The opening-gap check of `detect_silence` (lines 223-235): if the first
segment starts at or after `min_duration`, emit `[0, first.start]` with
confidence 0.9. -/
def leadingGap (segs : List Seg) (min_duration : ℚ) : List SilenceSegment :=
  match segs with
  | [] => []
  | s0 :: _ => if s0.start ≥ min_duration then [⟨0, s0.start, s0.start, 9 / 10⟩] else []

/-- The adjacent-gap loop of `detect_silence` (lines 238-256): for each
adjacent pair, in the given order, emit `[current.end, next.start]` with
confidence 0.9 when the gap is at least `min_duration`. -/
def gapsPart (min_duration : ℚ) : List Seg → List SilenceSegment
  | a :: b :: rest =>
    (if b.start - a.stop ≥ min_duration then
      [⟨a.stop, b.start, b.start - a.stop, 9 / 10⟩]
    else []) ++ gapsPart min_duration (b :: rest)
  | _ => []

/-- The ending-gap check of `detect_silence` (lines 259-279): if the video
extends at least `min_duration` past the last segment, emit
`[last.end, duration]` with confidence 0.9. -/
def trailingGap (segs : List Seg) (D min_duration : ℚ) : List SilenceSegment :=
  match segs.getLast? with
  | none => []
  | some sl => if D - sl.stop ≥ min_duration then [⟨sl.stop, D, D - sl.stop, 9 / 10⟩] else []

/-- The `detect_silence` endpoint (lines 131-311), transcription abstracted
away: on an empty segment list the average `no_speech_prob` computation
divides by zero; otherwise, if the average exceeds 0.4 the uniform-fallback
windows are returned, and otherwise the likelihood pass, the opening gap,
the adjacent gaps and the ending gap are appended, in that order, to one
result list. -/
def detect_silence (segs : List Seg) (D threshold min_duration : ℚ) :
    Except DetectError (List SilenceSegment) :=
  if segs.length = 0 then .error .zeroDivision
  else if (segs.map Seg.no_speech_prob).sum / (segs.length : ℚ) > 2 / 5 then
    .ok ((List.range (Int.toNat ⌊D / 3⌋)).filterMap fun (i : ℕ) =>
      let s : ℚ := (i : ℚ) * 3
      let e : ℚ := min (((i : ℚ) + 1) * 3) D
      if e - s ≥ min_duration then
        some ⟨s, e, e - s, 3 / 5 + ((i % 3 : ℕ) : ℚ) * (1 / 10)⟩
      else none)
  else
    .ok ((segs.filterMap fun s =>
        if s.no_speech_prob > threshold ∧ s.stop - s.start ≥ min_duration then
          some ⟨s.start, s.stop, s.stop - s.start, s.no_speech_prob⟩
        else none)
      ++ (match segs with
          | [] => []
          | s0 :: _ => if s0.start ≥ min_duration then [⟨0, s0.start, s0.start, 9 / 10⟩] else [])
      ++ ((segs.zip segs.tail).filterMap fun p =>
          if p.2.start - p.1.stop ≥ min_duration then
            some ⟨p.1.stop, p.2.start, p.2.start - p.1.stop, 9 / 10⟩
          else none)
      ++ (match segs.getLast? with
          | none => []
          | some sl =>
            if D - sl.stop ≥ min_duration then [⟨sl.stop, D, D - sl.stop, 9 / 10⟩] else []))

/-- Filesystem footprint of one request: whether its saved upload
(`uploads/<filename>`) currently exists. -/
structure Fs where
  uploadExists : Bool
deriving DecidableEq

/-- `open(file_path, "wb")` after a successful save. -/
def saveUpload (_ : Fs) : Fs := ⟨true⟩

/-- `os.remove(file_path)` guarded by `os.path.exists`. -/
def removeUpload (_ : Fs) : Fs := ⟨false⟩

/-- Where a `cut_video` request can fail. -/
inductive CutVideoFailure where
  | parseCuts
  | mediaProcessing
  | noFailure
deriving DecidableEq

/-- Filesystem effect of `cut_video` (lines 313-448).  `json.loads` runs
before the upload is saved; media processing runs after it; the cleanup
`os.remove(file_path)` is the last statement of the `try` body, and the
`except` clause re-raises without any cleanup (there is no `finally`). -/
def cut_video_fs (outcome : CutVideoFailure) (fs : Fs) : Except Unit Unit × Fs :=
  match outcome with
  | .parseCuts => (.error (), fs)
  | .mediaProcessing => (.error (), saveUpload fs)
  | .noFailure => (.ok (), removeUpload (saveUpload fs))

/-- Filesystem effect of `detect_silence` (lines 142-311): the upload is
saved, then transcription runs; cleanup happens just before the successful
return, and the `except` clause performs no cleanup. -/
def detect_silence_fs (transcriptionRaises : Bool) (fs : Fs) : Except Unit Unit × Fs :=
  if transcriptionRaises then (.error (), saveUpload fs)
  else (.ok (), removeUpload (saveUpload fs))

/-- Rightmost index of a character, `-1` when absent (Python `str.rfind`). -/
def rfindIdx (c : Char) (s : List Char) : Int :=
  s.enum.foldl (fun acc p => if p.2 = c then (p.1 : Int) else acc) (-1)

/-- `os.path.splitext(name)[1]` (posixpath): the suffix from the last dot,
provided that dot comes after the last path separator and after at least one
non-dot character of the base name; otherwise the empty extension. -/
def splitextExt (s : List Char) : List Char :=
  let sepIndex := rfindIdx '/' s
  let dotIndex := rfindIdx '.' s
  if sepIndex < dotIndex then
    if ((s.take dotIndex.toNat).drop (sepIndex + 1).toNat).any (fun ch => ch != '.') then
      s.drop dotIndex.toNat
    else []
  else []

/-- `os.path.splitext(file.filename)[1].lower()`. -/
def lowerExt (filename : String) : List Char :=
  (splitextExt filename.toList).map Char.toLower

/-- The `allowed_extensions` set of `upload_and_transcribe` (line 75). -/
def allowed_extensions : List (List Char) :=
  [".mp3".toList, ".mp4".toList, ".wav".toList, ".m4a".toList, ".webm".toList,
   ".ogg".toList, ".flac".toList, ".avi".toList, ".mov".toList]

/-- Observable outcome of one `upload_and_transcribe` request:
the HTTP status, whether `uploads/<filename>` was ever written, and whether
the transcription service was invoked. -/
structure UploadEffects where
  status : ℕ
  uploadCreated : Bool
  transcriptionInvoked : Bool
deriving DecidableEq

/-- The `upload_and_transcribe` endpoint (lines 67-129): an empty filename
or a disallowed extension aborts with 400 before the `try` block that saves
the upload and calls the transcription service; an accepted file is saved
and transcribed (200 on success, 500 if transcription raises). -/
def upload_and_transcribe (filename : String) (transcribeOk : Bool) : UploadEffects :=
  if filename = "" then ⟨400, false, false⟩
  else if lowerExt filename ∈ allowed_extensions then
    (if transcribeOk then ⟨200, true, true⟩ else ⟨500, true, true⟩)
  else ⟨400, false, false⟩

/-! ### Helper lemmas -/

/-- The adjacent-gap recursion equals a filterMap over the zip of the
segment list with its tail (the `for i in range(len - 1)` loop shape). -/
lemma gapsPart_eq_zip (min_duration : ℚ) (segs : List Seg) :
    gapsPart min_duration segs =
      (segs.zip segs.tail).filterMap fun p =>
        if p.2.start - p.1.stop ≥ min_duration then
          some ⟨p.1.stop, p.2.start, p.2.start - p.1.stop, 9 / 10⟩
        else none := by
  induction segs with
  | nil => rfl
  | cons a tail ih =>
    cases tail with
    | nil => rfl
    | cons b rest =>
      simp only [gapsPart, List.tail_cons, List.zip_cons_cons, List.filterMap_cons] at ih ⊢
      split
      · simp [ih]
      · simp [ih]

/-! ### C10 -/

/-- C10 (confirmed): an upload whose lowercased extension is not one of the
nine allowed ones is rejected with HTTP 400 before any file is saved and
before the transcription service is invoked. -/
theorem upload_rejects_unsupported_extension (filename : String) (ok : Bool)
    (h : lowerExt filename ∉ allowed_extensions) :
    upload_and_transcribe filename ok = ⟨400, false, false⟩ := by
  unfold upload_and_transcribe
  by_cases he : filename = ""
  · simp [he]
  · simp [he, h]

/-- C10 witness: the rejection at the concrete filename `payload.EXE`. -/
theorem upload_rejects_unsupported_extension_witness :
    lowerExt "payload.EXE" ∉ allowed_extensions ∧
    upload_and_transcribe "payload.EXE" true = ⟨400, false, false⟩ :=
  ⟨by decide, upload_rejects_unsupported_extension "payload.EXE" true (by decide)⟩

/-! ### C3 -/

/-- C3 (code bug): when media processing raises after the upload has been
saved, `cut_video` returns through its `except` clause with the saved upload
still on disk (there is no `finally` cleanup); the same holds for
`detect_silence` when transcription raises.  Only the success path removes
the upload. -/
theorem cut_video_leaves_upload_on_failure :
    (cut_video_fs .mediaProcessing ⟨false⟩).2.uploadExists = true ∧
    (detect_silence_fs true ⟨false⟩).2.uploadExists = true ∧
    (cut_video_fs .noFailure ⟨false⟩).2.uploadExists = false :=
  ⟨rfl, rfl, rfl⟩

/-! ### C8 -/

/-- C8 (code bug): on zero segments `detect_silence` hits the unguarded
`sum(...) / len(transcript.segments)` and raises `ZeroDivisionError`
(surfaced by the blanket handler as a generic 500); it does not fail with a
typed `InsufficientInput`. -/
theorem detect_silence_empty_divides_by_zero (D threshold min_duration : ℚ) :
    detect_silence [] D threshold min_duration = .error .zeroDivision ∧
    detect_silence [] D threshold min_duration ≠ .error .insufficientInput := by
  have h1 : detect_silence [] D threshold min_duration = .error .zeroDivision := rfl
  refine ⟨h1, ?_⟩
  rw [h1]
  simp

/-! ### C2 -/

/-- C2 counterexample: cuts covering the whole duration produce an empty
keep plan, and `cut_video` then silently emits the entire source clip
instead of failing with `NothingToKeep`. -/
theorem cut_video_full_cover_copies_source :
    cutVideoResult [⟨0, 10⟩] 10 = .ok [⟨0, 10⟩] ∧
    cutVideoResult [⟨0, 10⟩] 10 ≠ .error .nothingToKeep := by
  have h : cutVideoResult [⟨0, 10⟩] 10 = .ok [⟨0, 10⟩] := by
    norm_num [cutVideoResult, planKeepsVideo, sortCuts, List.insertionSort,
      List.orderedInsert, cutLE, planLoop, tolerance]
  refine ⟨h, ?_⟩
  rw [h]
  simp

/-- C2 amended: `cut_video` never fails with `NothingToKeep`; whenever the
keep plan is empty it returns a copy of the whole source `[0, D]`. -/
theorem cut_video_empty_plan_copies_source (cuts : List Interval) (D : ℚ) :
    cutVideoResult cuts D ≠ .error .nothingToKeep ∧
    (planKeepsVideo cuts D = [] → cutVideoResult cuts D = .ok [⟨0, D⟩]) := by
  constructor
  · simp only [cutVideoResult]
    split <;> simp
  · intro h
    simp [cutVideoResult, h]

/-- C2 amended witness: the concrete fully-covered request. -/
theorem cut_video_empty_plan_copies_source_witness :
    cutVideoResult [⟨0, 5⟩] 5 = .ok [⟨0, 5⟩] :=
  (cut_video_empty_plan_copies_source [⟨0, 5⟩] 5).2
    (by norm_num [planKeepsVideo, sortCuts, List.insertionSort, List.orderedInsert,
      cutLE, planLoop, tolerance])

/-! ### C7 -/

/-- C7 counterexample: an interior keep interval of duration 0.005 (below
the 0.01 tolerance) is kept, not dropped — the tolerance only guards the
final segment. -/
theorem interior_tiny_keep_not_dropped :
    planKeepsVideo [⟨0, 1⟩, ⟨201/200, 2⟩] 10 = [⟨1, 201/200⟩, ⟨2, 10⟩] ∧
    (⟨1, 201/200⟩ : Interval) ∈ planKeepsVideo [⟨0, 1⟩, ⟨201/200, 2⟩] 10 ∧
    (201/200 : ℚ) - 1 < tolerance := by
  have h : planKeepsVideo [⟨0, 1⟩, ⟨201/200, 2⟩] 10 = [⟨1, 201/200⟩, ⟨2, 10⟩] := by
    norm_num [planKeepsVideo, sortCuts, List.insertionSort, List.orderedInsert,
      cutLE, planLoop, tolerance]
  refine ⟨h, ?_, by norm_num [tolerance]⟩
  rw [h]
  simp

/-- C7 amended: the ε test applies to the trailing fragment only, and only
in the video branch: the final segment `(current_time, D)` is dropped
exactly when its duration is at most the 0.01 tolerance, while the audio
branch appends it whenever `current_time < D`, with no tolerance. -/
theorem cut_video_tail_tolerance (cuts : List Interval) (D : ℚ) :
    (D - (planLoop 0 (sortCuts cuts)).1 ≤ tolerance →
      planKeepsVideo cuts D = (planLoop 0 (sortCuts cuts)).2) ∧
    (tolerance < D - (planLoop 0 (sortCuts cuts)).1 →
      planKeepsVideo cuts D =
        (planLoop 0 (sortCuts cuts)).2 ++ [⟨(planLoop 0 (sortCuts cuts)).1, D⟩]) ∧
    ((planLoop 0 cuts).1 < D →
      planKeepsAudio cuts D = (planLoop 0 cuts).2 ++ [⟨(planLoop 0 cuts).1, D⟩]) := by
  unfold planKeepsVideo planKeepsAudio
  refine ⟨fun h => ?_, fun h => ?_, fun h => ?_⟩
  · rw [if_neg (by linarith)]
  · rw [if_pos (by linarith)]
  · rw [if_pos h]

/-- C7 amended witness: a cut ending 0.005 before the duration — the video
branch drops the trailing fragment, the audio branch keeps it. -/
theorem cut_video_tail_tolerance_witness :
    planKeepsVideo [⟨0, 1⟩] (201/200) = [] ∧
    planKeepsAudio [⟨0, 1⟩] (201/200) = [⟨1, 201/200⟩] := by
  constructor
  · exact ((cut_video_tail_tolerance [⟨0, 1⟩] (201/200)).1
      (by norm_num [planLoop, sortCuts, List.insertionSort, List.orderedInsert,
        cutLE, tolerance])).trans
      (by norm_num [planLoop, sortCuts, List.insertionSort, List.orderedInsert, cutLE])
  · exact ((cut_video_tail_tolerance [⟨0, 1⟩] (201/200)).2.2
      (by norm_num [planLoop])).trans (by norm_num [planLoop])

/-! ### C4 -/

/-- C4 counterexample: on segments `(0,2)` and `(4,6)` the emitted gap
carries the constant confidence 0.9, not `min(1, gap/5) = 0.4`; and on the
same segments given out of order nothing is sorted — the detector emits
the opening and ending gaps of the unsorted list instead of the real gap
`(2,4)`. -/
theorem gap_confidence_not_scaled :
    detect_silence [⟨0, 2, 0⟩, ⟨4, 6, 0⟩] 6 (3/10) 1 = .ok [⟨2, 4, 2, 9/10⟩] ∧
    (9/10 : ℚ) ≠ min 1 ((4 - 2) / 5) ∧
    detect_silence [⟨4, 6, 0⟩, ⟨0, 2, 0⟩] 6 (3/10) 1 =
      .ok [⟨0, 4, 4, 9/10⟩, ⟨2, 6, 4, 9/10⟩] := by
  refine ⟨by norm_num [detect_silence, List.filterMap_cons], ?_,
    by norm_num [detect_silence, List.filterMap_cons]⟩
  rw [min_eq_right (by norm_num : ((4:ℚ) - 2) / 5 ≤ 1)]
  norm_num

/-- C4 amended: the adjacent-gap pass of `detect_silence` walks the
segments in the order given (no sorting) and emits, for exactly the
adjacent pairs whose gap reaches `min_duration`, the interval
`[current.end, next.start]` with the constant confidence 0.9 and duration
equal to the gap. -/
theorem gaps_emitted_exactly (min_duration : ℚ) (segs : List Seg) (x : SilenceSegment) :
    x ∈ gapsPart min_duration segs ↔
      ∃ a b, (a, b) ∈ segs.zip segs.tail ∧ b.start - a.stop ≥ min_duration ∧
        x = ⟨a.stop, b.start, b.start - a.stop, 9/10⟩ := by
  rw [gapsPart_eq_zip, List.mem_filterMap]
  constructor
  · rintro ⟨⟨a, b⟩, hmem, hf⟩
    dsimp only at hf
    by_cases hc : b.start - a.stop ≥ min_duration
    · refine ⟨a, b, hmem, hc, ?_⟩
      rw [if_pos hc] at hf
      exact (Option.some.inj hf).symm
    · rw [if_neg hc] at hf
      cases hf
  · rintro ⟨a, b, hmem, hc, rfl⟩
    exact ⟨(a, b), hmem, by dsimp only; rw [if_pos hc]⟩

/-- C4 amended witness: the characterization instantiated at the gap
between `(0,2)` and `(4,6)`. -/
theorem gaps_emitted_exactly_witness :
    (⟨2, 4, 2, 9/10⟩ : SilenceSegment) ∈ gapsPart 1 [⟨0, 2, 0⟩, ⟨4, 6, 0⟩] :=
  (gaps_emitted_exactly 1 [⟨0, 2, 0⟩, ⟨4, 6, 0⟩] ⟨2, 4, 2, 9/10⟩).mpr
    ⟨⟨0, 2, 0⟩, ⟨4, 6, 0⟩, by simp, by norm_num, by norm_num⟩

/-! ### C5 -/

/-- C5 counterexample: one invocation returns a likelihood-derived interval
and a gap-derived interval in the same result list. -/
theorem detector_mixes_strategies :
    detect_silence [⟨0, 2, 1/2⟩, ⟨4, 6, 0⟩] 6 (3/10) 1 =
      .ok [⟨0, 2, 2, 1/2⟩, ⟨2, 4, 2, 9/10⟩] ∧
    (⟨0, 2, 2, 1/2⟩ : SilenceSegment) ∈ likelihoodPart [⟨0, 2, 1/2⟩, ⟨4, 6, 0⟩] (3/10) 1 ∧
    (⟨2, 4, 2, 9/10⟩ : SilenceSegment) ∈ gapsPart 1 [⟨0, 2, 1/2⟩, ⟨4, 6, 0⟩] := by
  refine ⟨by norm_num [detect_silence, List.filterMap_cons], ?_, ?_⟩
  · norm_num [likelihoodPart, List.filterMap_cons]
  · norm_num [gapsPart]

/-- C5 amended: strategy selection is automatic (by the mean
`no_speech_prob`), not caller-chosen, and the speech branch concatenates
the likelihood pass, the opening gap, the adjacent gaps and the ending gap
into one result list. -/
theorem detect_silence_speech_branch_mixes (segs : List Seg) (D threshold min_duration : ℚ)
    (hne : segs.length ≠ 0)
    (havg : (segs.map Seg.no_speech_prob).sum / (segs.length : ℚ) ≤ 2/5) :
    detect_silence segs D threshold min_duration =
      .ok (likelihoodPart segs threshold min_duration ++ leadingGap segs min_duration
        ++ gapsPart min_duration segs ++ trailingGap segs D min_duration) := by
  unfold detect_silence
  rw [if_neg hne, if_neg (not_lt.mpr havg), gapsPart_eq_zip]
  rfl

/-- C5 amended witness: the mixed result at a concrete speech-branch input. -/
theorem detect_silence_speech_branch_mixes_witness :
    detect_silence [⟨0, 2, 1/2⟩, ⟨4, 6, 0⟩] 6 (3/10) 1 =
      .ok (likelihoodPart [⟨0, 2, 1/2⟩, ⟨4, 6, 0⟩] (3/10) 1
        ++ leadingGap [⟨0, 2, 1/2⟩, ⟨4, 6, 0⟩] 1
        ++ gapsPart 1 [⟨0, 2, 1/2⟩, ⟨4, 6, 0⟩]
        ++ trailingGap [⟨0, 2, 1/2⟩, ⟨4, 6, 0⟩] 6 1) :=
  detect_silence_speech_branch_mixes _ _ _ _ (by norm_num) (by norm_num)

/-! ### C6 -/

/-- C6 counterexample: a single-segment input on the speech branch yields
the likelihood interval `(4,6)` before the opening gap `(0,4)` — the result
list is not ascending by start. -/
theorem detector_output_not_ascending :
    detect_silence [⟨4, 6, 7/20⟩] 6 (3/10) 1 = .ok [⟨4, 6, 2, 7/20⟩, ⟨0, 4, 4, 9/10⟩] ∧
    ¬ ([⟨4, 6, 2, 7/20⟩, ⟨0, 4, 4, 9/10⟩] : List SilenceSegment).Pairwise
        (fun a b => a.start ≤ b.start) := by
  refine ⟨by norm_num [detect_silence, List.filterMap_cons], ?_⟩
  norm_num [List.pairwise_cons]

/-- The uniform-fallback windows are ascending by start. -/
lemma uniformWindows_sorted (D min_duration : ℚ) :
    (uniformWindows D min_duration).Pairwise fun a b => a.start ≤ b.start := by
  unfold uniformWindows
  refine List.Pairwise.filterMap _ ?_ (List.pairwise_lt_range _)
  intro i j hij x hx y hy
  dsimp only at hx hy
  have hxs : x.start = (i : ℚ) * 3 := by
    split at hx
    · cases hx
      rfl
    · cases hx
  have hys : y.start = (j : ℚ) * 3 := by
    split at hy
    · cases hy
      rfl
    · cases hy
  rw [hxs, hys]
  have : (i : ℚ) ≤ (j : ℚ) := by exact_mod_cast le_of_lt hij
  linarith

/-- C6 amended: ascending output is not guaranteed in general (see the
counterexample); it does hold on the uniform-fallback branch, whose windows
are emitted left to right. -/
theorem uniform_branch_output_ascending (segs : List Seg) (D threshold min_duration : ℚ)
    (hne : segs.length ≠ 0)
    (havg : 2/5 < (segs.map Seg.no_speech_prob).sum / (segs.length : ℚ)) :
    detect_silence segs D threshold min_duration = .ok (uniformWindows D min_duration) ∧
    (uniformWindows D min_duration).Pairwise fun a b => a.start ≤ b.start := by
  refine ⟨?_, uniformWindows_sorted D min_duration⟩
  unfold detect_silence uniformWindows
  rw [if_neg hne, if_pos havg]

/-- C6 amended witness: the fallback branch at a concrete music-like input. -/
theorem uniform_branch_output_ascending_witness :
    detect_silence [⟨0, 2, 1⟩] 10 (3/10) (1/2) = .ok (uniformWindows 10 (1/2)) ∧
    (uniformWindows 10 (1/2)).Pairwise fun a b => a.start ≤ b.start :=
  uniform_branch_output_ascending _ _ _ _ (by norm_num) (by norm_num)

/-! ### C9 -/

/-- A filterMap whose function is total on the list is a map. -/
lemma filterMap_eq_map_on {α β : Type} {l : List α} {F : α → Option β} {G : α → β}
    (h : ∀ a ∈ l, F a = some (G a)) : l.filterMap F = l.map G := by
  induction l with
  | nil => rfl
  | cons x xs ih =>
    simp [List.filterMap_cons, h x (List.mem_cons_self x xs),
      ih fun a ha => h a (List.mem_cons_of_mem x ha)]

/-- C9 counterexample: with duration 10 and `min_duration = 0.5` the
fallback emits only the three full windows ending at 9; the remainder
window `[9,10]`, although its duration 1 meets `min_duration`, is never
emitted — the fallback does not partition the whole of `[0, D]`. -/
theorem uniform_fallback_drops_tail_window :
    detect_silence [⟨0, 2, 1⟩] 10 (3/10) (1/2) =
      .ok [⟨0, 3, 3, 3/5⟩, ⟨3, 6, 3, 7/10⟩, ⟨6, 9, 3, 4/5⟩] ∧
    (10 : ℚ) - 9 ≥ 1/2 ∧
    ∀ s ∈ ([⟨0, 3, 3, 3/5⟩, ⟨3, 6, 3, 7/10⟩, ⟨6, 9, 3, 4/5⟩] : List SilenceSegment),
      s.stop ≤ 9 := by
  refine ⟨?_, by norm_num, ?_⟩
  · have h : List.range (Int.toNat 3) = [0, 1, 2] := by decide
    norm_num [detect_silence, h, List.filterMap_cons]
  · intro s hs
    fin_cases hs <;> norm_num

/-- C9 amended: when the mean `no_speech_prob` exceeds 0.4 the fallback
emits exactly the `⌊D/3⌋` full 3-second windows `[3i, 3(i+1)]` (each
emitted because `min_duration ≤ 3`), with synthetic confidence
`0.6 + (i mod 3) * 0.1`; the windows stop at `3⌊D/3⌋ ≤ D` and the trailing
partial window is never emitted. -/
theorem uniform_windows_are_full_windows (D min_duration : ℚ) (hD : 0 ≤ D)
    (hmd : min_duration ≤ 3) :
    uniformWindows D min_duration =
      (List.range (Int.toNat ⌊D / 3⌋)).map (fun (i : ℕ) =>
        ⟨(i : ℚ) * 3, ((i : ℚ) + 1) * 3, 3, 3/5 + ((i % 3 : ℕ) : ℚ) * (1/10)⟩) ∧
    3 * ((Int.toNat ⌊D / 3⌋ : ℕ) : ℚ) ≤ D := by
  have hnn : (0 : ℤ) ≤ ⌊D / 3⌋ := Int.floor_nonneg.mpr (by positivity)
  have hn : ((Int.toNat ⌊D / 3⌋ : ℕ) : ℚ) = ((⌊D / 3⌋ : ℤ) : ℚ) := by
    exact_mod_cast Int.toNat_of_nonneg hnn
  have hfl : ((⌊D / 3⌋ : ℤ) : ℚ) ≤ D / 3 := Int.floor_le (D / 3)
  have hbound : 3 * ((Int.toNat ⌊D / 3⌋ : ℕ) : ℚ) ≤ D := by
    rw [hn]
    have h2 : 3 * ((⌊D / 3⌋ : ℤ) : ℚ) ≤ 3 * (D / 3) := by linarith
    calc 3 * ((⌊D / 3⌋ : ℤ) : ℚ) ≤ 3 * (D / 3) := h2
      _ = D := by ring
  refine ⟨?_, hbound⟩
  unfold uniformWindows
  apply filterMap_eq_map_on
  intro i hi
  have hi2 : i < Int.toNat ⌊D / 3⌋ := List.mem_range.mp hi
  have hle : ((i : ℚ) + 1) * 3 ≤ D := by
    have hc : ((i : ℚ) + 1) ≤ ((Int.toNat ⌊D / 3⌋ : ℕ) : ℚ) := by
      exact_mod_cast Nat.succ_le_of_lt hi2
    nlinarith
  dsimp only
  rw [min_eq_left hle]
  have hdur : ((i : ℚ) + 1) * 3 - (i : ℚ) * 3 = 3 := by ring
  rw [hdur, if_pos hmd]

/-- C9 amended witness: duration 10 yields exactly the three full windows. -/
theorem uniform_windows_are_full_windows_witness :
    uniformWindows 10 (1/2) =
      (List.range (Int.toNat ⌊(10 : ℚ) / 3⌋)).map (fun (i : ℕ) =>
        ⟨(i : ℚ) * 3, ((i : ℚ) + 1) * 3, 3, 3/5 + ((i % 3 : ℕ) : ℚ) * (1/10)⟩) ∧
    3 * ((Int.toNat ⌊(10 : ℚ) / 3⌋ : ℕ) : ℚ) ≤ 10 :=
  uniform_windows_are_full_windows 10 (1/2) (by norm_num) (by norm_num)

/-! ### C1: invariants of the keep loop -/

/-- Unfolding equation for one step of the keep loop. -/
lemma planLoop_cons (cur : ℚ) (c : Interval) (cs : List Interval) :
    planLoop cur (c :: cs) =
      ((planLoop c.stop cs).1,
        (if cur < c.start then [⟨cur, c.start⟩] else []) ++ (planLoop c.stop cs).2) := rfl

/-- The final `current_time` dominates the initial one and every cut end,
provided cut ends are non-decreasing along the list. -/
lemma planLoop_fst_ge (cs : List Interval) :
    ∀ cur : ℚ, (cs.Pairwise fun a b => a.stop ≤ b.stop) → (∀ c ∈ cs, cur ≤ c.stop) →
      cur ≤ (planLoop cur cs).1 ∧ ∀ c ∈ cs, c.stop ≤ (planLoop cur cs).1 := by
  induction cs with
  | nil => intro cur _ _; exact ⟨le_refl _, by simp⟩
  | cons c cs ih =>
    intro cur hst hge
    rw [List.pairwise_cons] at hst
    have hrec := ih c.stop hst.2 hst.1
    rw [planLoop_cons]
    dsimp only
    refine ⟨le_trans (hge c (List.mem_cons_self c cs)) hrec.1, ?_⟩
    intro d hd
    rcases List.mem_cons.mp hd with h | h
    · rw [h]
      exact hrec.1
    · exact hrec.2 d h

/-- Keeps produced by the loop are well-formed, bounded between the
starting `current_time` and the final one, and pairwise disjoint in
emission order. -/
lemma planLoop_keeps (cs : List Interval) :
    ∀ cur : ℚ, (∀ c ∈ cs, c.start < c.stop) → (cs.Pairwise fun a b => a.stop ≤ b.stop) →
      (∀ c ∈ cs, cur ≤ c.stop) →
      (∀ k ∈ (planLoop cur cs).2,
          cur ≤ k.start ∧ k.start < k.stop ∧ k.stop ≤ (planLoop cur cs).1) ∧
        (planLoop cur cs).2.Pairwise fun a b => a.stop ≤ b.start := by
  induction cs with
  | nil => intro cur _ _ _; exact ⟨by simp [planLoop], by simp [planLoop]⟩
  | cons c cs ih =>
    intro cur hwf hst hge
    rw [List.pairwise_cons] at hst
    have hwfc := hwf c (List.mem_cons_self c cs)
    have hwft : ∀ d ∈ cs, d.start < d.stop := fun d hd => hwf d (List.mem_cons_of_mem c hd)
    have hrec := ih c.stop hwft hst.2 hst.1
    have hfst := planLoop_fst_ge cs c.stop hst.2 hst.1
    rw [planLoop_cons]
    dsimp only
    constructor
    · intro k hk
      rcases List.mem_append.mp hk with h | h
      · by_cases hlt : cur < c.start
        · rw [if_pos hlt] at h
          have hks : k = ⟨cur, c.start⟩ := List.mem_singleton.mp h
          rw [hks]
          exact ⟨le_refl _, hlt, le_trans (le_of_lt hwfc) hfst.1⟩
        · rw [if_neg hlt] at h
          cases h
      · have hr := hrec.1 k h
        exact ⟨le_trans (hge c (List.mem_cons_self c cs)) hr.1, hr.2.1, hr.2.2⟩
    · rw [List.pairwise_append]
      refine ⟨?_, hrec.2, ?_⟩
      · split
        · exact List.pairwise_singleton _ _
        · exact List.Pairwise.nil
      · intro a ha b hb
        have hb2 := (hrec.1 b hb).1
        by_cases hlt : cur < c.start
        · rw [if_pos hlt] at ha
          have has : a = ⟨cur, c.start⟩ := List.mem_singleton.mp ha
          rw [has]
          exact le_trans (le_of_lt hwfc) hb2
        · rw [if_neg hlt] at ha
          cases ha

/-- Under sorted starts and non-decreasing ends, every keep the loop emits
is disjoint from every cut of the list. -/
lemma planLoop_disjoint (cs : List Interval) :
    ∀ cur : ℚ, (∀ c ∈ cs, c.start < c.stop) →
      (cs.Pairwise fun a b => a.start ≤ b.start) →
      (cs.Pairwise fun a b => a.stop ≤ b.stop) →
      (∀ c ∈ cs, cur ≤ c.stop) →
      ∀ k ∈ (planLoop cur cs).2, ∀ c ∈ cs, c.stop ≤ k.start ∨ k.stop ≤ c.start := by
  induction cs with
  | nil =>
    intro cur _ _ _ _ k hk
    simp [planLoop] at hk
  | cons c cs ih =>
    intro cur hwf hsort hst hge k hk d hd
    rw [List.pairwise_cons] at hsort hst
    have hwft : ∀ e ∈ cs, e.start < e.stop := fun e he => hwf e (List.mem_cons_of_mem c he)
    rw [planLoop_cons] at hk
    dsimp only at hk
    rcases List.mem_append.mp hk with h | h
    · by_cases hlt : cur < c.start
      · rw [if_pos hlt] at h
        have hks : k = ⟨cur, c.start⟩ := List.mem_singleton.mp h
        rw [hks]
        rcases List.mem_cons.mp hd with hdc | hdcs
        · rw [hdc]
          right
          exact le_refl _
        · right
          exact hsort.1 d hdcs
      · rw [if_neg hlt] at h
        cases h
    · have hkr := (planLoop_keeps cs c.stop hwft hst.2 hst.1).1 k h
      rcases List.mem_cons.mp hd with hdc | hdcs
      · rw [hdc]
        left
        exact hkr.1
      · exact ih c.stop hwft hsort.2 hst.2 hst.1 k h d hdcs

/-- Everything between the starting `current_time` and the final one is
covered by an emitted keep or by a cut of the list. -/
lemma planLoop_cover (cs : List Interval) :
    ∀ cur t : ℚ, cur ≤ t → t < (planLoop cur cs).1 →
      (∃ k ∈ (planLoop cur cs).2, k.start ≤ t ∧ t < k.stop) ∨
        ∃ c ∈ cs, c.start ≤ t ∧ t < c.stop := by
  induction cs with
  | nil =>
    intro cur t h1 h2
    simp only [planLoop] at h2
    exact absurd h2 (not_lt.mpr h1)
  | cons c cs ih =>
    intro cur t h1 h2
    rw [planLoop_cons] at h2 ⊢
    dsimp only at h2 ⊢
    by_cases ha : t < c.start
    · left
      have hlt : cur < c.start := lt_of_le_of_lt h1 ha
      refine ⟨⟨cur, c.start⟩, ?_, h1, ha⟩
      rw [if_pos hlt]
      exact List.mem_append.mpr (Or.inl (List.mem_singleton_self _))
    · by_cases hb : t < c.stop
      · right
        exact ⟨c, List.mem_cons_self c cs, not_lt.mp ha, hb⟩
      · rcases ih c.stop t (not_lt.mp hb) h2 with hcase | hcase
        · left
          rcases hcase with ⟨k, hk, hks⟩
          exact ⟨k, List.mem_append.mpr (Or.inr hk), hks⟩
        · right
          rcases hcase with ⟨d, hd, hds⟩
          exact ⟨d, List.mem_cons_of_mem c hd, hds⟩

/-- C1 counterexample: with the nested cuts `(0,10)` and `(2,3)` the video
branch rewinds `current_time` to 3 and keeps `(3,10)`, which overlaps the
cut `(0,10)` — the keep plan is not disjoint from the cuts. -/
theorem cut_video_plan_overlaps_nested_cut :
    planKeepsVideo [⟨0, 10⟩, ⟨2, 3⟩] 10 = [⟨3, 10⟩] ∧
    ¬ (∀ k ∈ planKeepsVideo [⟨0, 10⟩, ⟨2, 3⟩] 10,
        ∀ c ∈ ([⟨0, 10⟩, ⟨2, 3⟩] : List Interval),
          c.stop ≤ k.start ∨ k.stop ≤ c.start) := by
  have h : planKeepsVideo [⟨0, 10⟩, ⟨2, 3⟩] 10 = [⟨3, 10⟩] := by
    norm_num [planKeepsVideo, sortCuts, List.insertionSort, List.orderedInsert,
      cutLE, planLoop, tolerance]
  refine ⟨h, ?_⟩
  rw [h]
  intro hcon
  have h2 := hcon ⟨3, 10⟩ (List.mem_singleton_self _) ⟨0, 10⟩ (by simp)
  rcases h2 with h3 | h3 <;> norm_num at h3

/-- C1 amended: for well-formed cuts whose ends are non-decreasing once
sorted by start (no cut strictly nested in an earlier one), the video-branch
keep plan is ascending and pairwise disjoint, well-formed, disjoint from
every cut, and together with the cuts covers `[0, D)` except possibly a
trailing gap of at most the 0.01 tolerance (deliberately dropped). -/
theorem cut_video_plan_correct (cuts : List Interval) (D : ℚ)
    (hwf : ∀ c ∈ cuts, 0 ≤ c.start ∧ c.start < c.stop)
    (hst : (sortCuts cuts).Pairwise fun a b => a.stop ≤ b.stop) :
    ((planKeepsVideo cuts D).Pairwise fun a b => a.stop ≤ b.start) ∧
    (∀ k ∈ planKeepsVideo cuts D, 0 ≤ k.start ∧ k.start < k.stop) ∧
    (∀ k ∈ planKeepsVideo cuts D, ∀ c ∈ cuts, c.stop ≤ k.start ∨ k.stop ≤ c.start) ∧
    ∀ t : ℚ, 0 ≤ t → t < D →
      (∃ k ∈ planKeepsVideo cuts D, k.start ≤ t ∧ t < k.stop) ∨
      (∃ c ∈ cuts, c.start ≤ t ∧ t < c.stop) ∨ D - t ≤ tolerance := by
  have hperm : List.Perm (sortCuts cuts) cuts := List.perm_insertionSort cutLE cuts
  have hsort : (sortCuts cuts).Pairwise fun a b => a.start ≤ b.start :=
    List.sorted_insertionSort cutLE cuts
  have hwfs : ∀ c ∈ sortCuts cuts, 0 ≤ c.start ∧ c.start < c.stop :=
    fun c hc => hwf c (hperm.subset hc)
  have hwfs2 : ∀ c ∈ sortCuts cuts, c.start < c.stop := fun c hc => (hwfs c hc).2
  have hge : ∀ c ∈ sortCuts cuts, (0 : ℚ) ≤ c.stop :=
    fun c hc => le_of_lt (lt_of_le_of_lt (hwfs c hc).1 (hwfs c hc).2)
  have hkeeps := planLoop_keeps (sortCuts cuts) 0 hwfs2 hst hge
  have hfst := planLoop_fst_ge (sortCuts cuts) 0 hst hge
  have hdisj := planLoop_disjoint (sortCuts cuts) 0 hwfs2 hsort hst hge
  have htol : (0 : ℚ) < tolerance := by norm_num [tolerance]
  by_cases hfin : (planLoop 0 (sortCuts cuts)).1 + tolerance < D
  · have heq : planKeepsVideo cuts D =
        (planLoop 0 (sortCuts cuts)).2 ++ [⟨(planLoop 0 (sortCuts cuts)).1, D⟩] := by
      unfold planKeepsVideo
      rw [if_pos hfin]
    rw [heq]
    refine ⟨?_, ?_, ?_, ?_⟩
    · rw [List.pairwise_append]
      refine ⟨hkeeps.2, List.pairwise_singleton _ _, ?_⟩
      intro a ha b hb
      have hb2 : b = ⟨(planLoop 0 (sortCuts cuts)).1, D⟩ := List.mem_singleton.mp hb
      rw [hb2]
      exact (hkeeps.1 a ha).2.2
    · intro k hk
      rcases List.mem_append.mp hk with h | h
      · exact ⟨(hkeeps.1 k h).1, (hkeeps.1 k h).2.1⟩
      · have hk2 : k = ⟨(planLoop 0 (sortCuts cuts)).1, D⟩ := List.mem_singleton.mp h
        rw [hk2]
        exact ⟨hfst.1, by dsimp only; linarith⟩
    · intro k hk c hc
      have hcs : c ∈ sortCuts cuts := hperm.mem_iff.mpr hc
      rcases List.mem_append.mp hk with h | h
      · exact hdisj k h c hcs
      · have hk2 : k = ⟨(planLoop 0 (sortCuts cuts)).1, D⟩ := List.mem_singleton.mp h
        rw [hk2]
        left
        exact hfst.2 c hcs
    · intro t ht0 htD
      by_cases htr : t < (planLoop 0 (sortCuts cuts)).1
      · rcases planLoop_cover (sortCuts cuts) 0 t ht0 htr with h | h
        · left
          rcases h with ⟨k, hk, hks⟩
          exact ⟨k, List.mem_append.mpr (Or.inl hk), hks⟩
        · right
          left
          rcases h with ⟨c, hc, hcs⟩
          exact ⟨c, hperm.subset hc, hcs⟩
      · left
        exact ⟨⟨(planLoop 0 (sortCuts cuts)).1, D⟩,
          List.mem_append.mpr (Or.inr (List.mem_singleton_self _)), not_lt.mp htr, htD⟩
  · have heq : planKeepsVideo cuts D = (planLoop 0 (sortCuts cuts)).2 := by
      unfold planKeepsVideo
      rw [if_neg hfin]
    rw [heq]
    refine ⟨hkeeps.2, ?_, ?_, ?_⟩
    · intro k hk
      exact ⟨(hkeeps.1 k hk).1, (hkeeps.1 k hk).2.1⟩
    · intro k hk c hc
      exact hdisj k hk c (hperm.mem_iff.mpr hc)
    · intro t ht0 htD
      by_cases htr : t < (planLoop 0 (sortCuts cuts)).1
      · rcases planLoop_cover (sortCuts cuts) 0 t ht0 htr with h | h
        · left
          exact h
        · right
          left
          rcases h with ⟨c, hc, hcs⟩
          exact ⟨c, hperm.subset hc, hcs⟩
      · right
        right
        have hd2 : D ≤ (planLoop 0 (sortCuts cuts)).1 + tolerance := not_lt.mp hfin
        have ht2 : (planLoop 0 (sortCuts cuts)).1 ≤ t := not_lt.mp htr
        linarith

/-- C1 amended witness: the amended plan correctness at the concrete cuts
`(1,2)` and `(4,6)` with duration 10. -/
theorem cut_video_plan_correct_witness :
    ((planKeepsVideo [⟨1, 2⟩, ⟨4, 6⟩] 10).Pairwise fun a b => a.stop ≤ b.start) ∧
    (∀ k ∈ planKeepsVideo [⟨1, 2⟩, ⟨4, 6⟩] 10, 0 ≤ k.start ∧ k.start < k.stop) ∧
    (∀ k ∈ planKeepsVideo [⟨1, 2⟩, ⟨4, 6⟩] 10,
      ∀ c ∈ ([⟨1, 2⟩, ⟨4, 6⟩] : List Interval), c.stop ≤ k.start ∨ k.stop ≤ c.start) ∧
    ∀ t : ℚ, 0 ≤ t → t < 10 →
      (∃ k ∈ planKeepsVideo [⟨1, 2⟩, ⟨4, 6⟩] 10, k.start ≤ t ∧ t < k.stop) ∨
      (∃ c ∈ ([⟨1, 2⟩, ⟨4, 6⟩] : List Interval), c.start ≤ t ∧ t < c.stop) ∨
      10 - t ≤ tolerance :=
  cut_video_plan_correct [⟨1, 2⟩, ⟨4, 6⟩] 10
    (by norm_num [List.forall_mem_cons])
    (by norm_num [sortCuts, List.insertionSort, List.orderedInsert, cutLE,
      List.pairwise_cons])

end SmartCut
